import Mathlib

/-!
Shallow embedding of `src/compiler.js` (the htmplate template compiler).

The source has two components:
* `PreProcessor` — strips blank lines and rewrites space indentation into
  tab indentation (`process`);
* `Compiler` — tokenizes the canonical text into `Line` records, expands
  single-line `tag: child` statements, parses tag / id / class / named
  attributes, and emits HTML with a level-ordered stack (`compile`).

Text is modelled as `List Char`; every JS string primitive used by the
source (`split('\n')`, `join('\n')`, `trim()`, `substring`) is given an
explicit definition below.  All definitions are executable.
-/

namespace Htmplate

/-- Whitespace as recognized by JS `String.prototype.trim` on the ASCII
range handled by this program (the source reads the file as ASCII). -/
def isWS (c : Char) : Bool :=
  c = ' ' || c = '\t' || c = '\n' || c = '\r'

/-- JS `s.trim()`: strip whitespace from both ends. -/
def jsTrim (l : List Char) : List Char :=
  ((l.dropWhile isWS).reverse.dropWhile isWS).reverse

/-- JS `s.split('\n')`.  Note `"".split('\n')` is `[""]`, hence the base
case produces one empty line. -/
def splitNL : List Char → List (List Char)
  | [] => [[]]
  | c :: cs =>
    if c = '\n' then [] :: splitNL cs
    else
      match splitNL cs with
      | [] => [[c]]
      | h :: t => (c :: h) :: t

/-- JS `lines.join('\n')`. -/
def joinNL : List (List Char) → List Char
  | [] => []
  | [l] => l
  | l :: ls => l ++ '\n' :: joinNL ls

/-- Length of the leading run of `' '` characters. -/
def leadingSpaces : List Char → Nat
  | [] => 0
  | c :: cs => if c = ' ' then leadingSpaces cs + 1 else 0

/-- Length of the leading run of characters that are not `' '`. -/
def leadingNonSpaces : List Char → Nat
  | [] => 0
  | c :: cs => if c = ' ' then 0 else leadingNonSpaces cs + 1

/-- Length of the leading run of `'\t'` characters. -/
def leadingTabs : List Char → Nat
  | [] => 0
  | c :: cs => if c = '\t' then leadingTabs cs + 1 else 0

/-- JS `s.substring(a, b)` for `a ≤ b`. -/
def substr (s : List Char) (a b : Nat) : List Char :=
  (s.drop a).take (b - a)

/-! ## PreProcessor -/

/-- `PreProcessor.INDENTED_WITH_SPACES` / `INDENTED_WITH_TABS`. -/
inductive IndentationType where
  | spaces
  | tabs
deriving DecidableEq

/-- `PreProcessor.prototype._removeEmptyLines`: drop every line whose
trimmed content is empty. -/
def removeEmptyLines (ls : List (List Char)) : List (List Char) :=
  ls.filter (fun l => !(jsTrim l).isEmpty)

/-- `PreProcessor.prototype._getIndentationType`: the first line whose
first character is a space classifies the input as space-indented, the
first line whose first character is a tab as tab-indented; default tabs. -/
def getIndentationType : List (List Char) → IndentationType
  | [] => IndentationType.tabs
  | l :: rest =>
    match l.head? with
    | some ' ' => IndentationType.spaces
    | some '\t' => IndentationType.tabs
    | _ => getIndentationType rest

/-- `PreProcessor.prototype._getSpacesPerTab`: on the first line starting
with a space, count its leading spaces up to the first non-space; if the
whole line is spaces the JS inner loop falls through without returning
and scanning continues with the next line. -/
def getSpacesPerTab : List (List Char) → Nat
  | [] => 0
  | l :: rest =>
    match l.head? with
    | some ' ' =>
      if leadingSpaces l = l.length then getSpacesPerTab rest
      else leadingSpaces l
    | _ => getSpacesPerTab rest

/-- Iteration count of the rewrite loop
`for (var j = 0; j < numTabs; j++)` in `_replaceSpacesWithTabs`, where
`numTabs = spacesEndAt / spacesPerTab` is a JS *floating point* quotient:
the body runs once for every natural `j` below the rational
`count / w`, i.e. `⌈count / w⌉` times.  For `w = 0` the source would not
terminate, but `_getSpacesPerTab` is proven below to return a positive
width whenever the rewrite runs (`getSpacesPerTab_pos`). -/
def numTabsFor (count w : Nat) : Nat :=
  (count + w - 1) / w

/-- The per-line body of `PreProcessor.prototype._replaceSpacesWithTabs`:
`spacesEndAt` is the index of the first non-space character (`-1`, i.e.
leave the line unchanged, when the line is entirely spaces); otherwise
the leading spaces are replaced by the loop's tabs. -/
def replaceLine (w : Nat) (l : List Char) : List Char :=
  if leadingSpaces l = l.length then l
  else List.replicate (numTabsFor (leadingSpaces l) w) '\t' ++ l.drop (leadingSpaces l)

/-- `PreProcessor.prototype._replaceSpacesWithTabs` over all lines. -/
def replaceSpacesWithTabs (w : Nat) (ls : List (List Char)) : List (List Char) :=
  ls.map (replaceLine w)

/-- `PreProcessor.prototype.process`: remove blank lines, then, if the
input is space-indented, rewrite every line's leading spaces into tabs. -/
def process (cs : List Char) : List Char :=
  let lines := removeEmptyLines (splitNL cs)
  match getIndentationType lines with
  | IndentationType.spaces => joinNL (replaceSpacesWithTabs (getSpacesPerTab lines) lines)
  | IndentationType.tabs => joinNL lines

/-- The normalizer entry point on `String` (spec §6 `normalize`). -/
def normalize (s : String) : String :=
  String.mk (process s.data)

/-! ## Compiler: line records and tokenization -/

/-- `Compiler.Line`: a line's text (indentation stripped, trimmed) and
its nesting level.  The source also stores `tag` and `props` fields that
`_parseLines` fills in; they are recomputed from `line` on demand here
(`parseTag` / `lineProps`), which is observationally the same since the
source writes them once and only reads them afterwards. -/
structure Line where
  line : List Char
  level : Nat
deriving DecidableEq

/-- `Compiler.prototype._getLineObjects`: split on newlines; a line's
level is its count of leading tabs; its content is the remainder,
trimmed. -/
def getLineObjects (cs : List Char) : List Line :=
  (splitNL cs).map fun l =>
    { line := jsTrim (l.drop (leadingTabs l)), level := leadingTabs l }

/-- The scan inside `_expandSingleLineStatements` over one line's text:
find the first `':'` outside parentheses ( `'('` sets the in-parens flag,
`')'` clears it).  If non-whitespace content follows the colon, return
the line truncated just after the colon together with the trimmed
remainder (the synthetic child's content); otherwise the loop breaks
with no change. -/
def splitLineAux : Bool → List Char → Option (List Char × List Char)
  | _, [] => none
  | ip, c :: cs =>
    if c = '(' then (splitLineAux true cs).map (fun p => (c :: p.1, p.2))
    else if c = ')' then (splitLineAux false cs).map (fun p => (c :: p.1, p.2))
    else if !ip && c = ':' then
      let nextLine := jsTrim cs
      if nextLine.isEmpty then none else some ([c], nextLine)
    else (splitLineAux ip cs).map (fun p => (c :: p.1, p.2))

/-- The colon split applied to a line (in-parens flag starts false). -/
def splitLine (cs : List Char) : Option (List Char × List Char) :=
  splitLineAux false cs

/-- One pass of `Compiler.prototype._expandSingleLineStatements`.  The
source iterates over the array it is splicing into: after splitting
line `i`, the next iteration visits the freshly inserted child, so a
synthetic child can be split again.  Each step either moves past one
line or replaces the head by a strictly shorter child, so the loop runs
at most (total character count + line count) times; `fuel` makes that
bound explicit and `expandSingleLineStatements` supplies it, so the
zero-fuel branch is never reached. -/
def expandGo : Nat → List Line → List Line
  | 0, ls => ls
  | _ + 1, [] => []
  | fuel + 1, l :: rest =>
    match splitLine l.line with
    | none => l :: expandGo fuel rest
    | some (truncated, child) =>
      { line := truncated, level := l.level } ::
        expandGo fuel ({ line := child, level := l.level + 1 } :: rest)

/-- `Compiler.prototype._expandSingleLineStatements`. -/
def expandSingleLineStatements (ls : List Line) : List Line :=
  expandGo (ls.foldr (fun l n => l.line.length + n) 0 + ls.length) ls

/-! ## Compiler: per-line parsing -/

/-- `Compiler.prototype._parseTag`: the text before the first `'#'`,
`'.'`, `'('` or `':'`; `none` models the `NO_TAG` sentinel returned when
the line contains no delimiter. -/
def parseTag : List Char → Option (List Char)
  | [] => none
  | c :: cs =>
    if c = '#' || c = '.' || c = '(' || c = ':' then some []
    else (parseTag cs).map (fun t => c :: t)

/-- Inner loop of `_parseId`: after a `'#'`, the id extends to the next
`'.'`, `'('` or `':'`; if no such delimiter follows before the end of
the line, nothing is returned. -/
def idAfterHash : List Char → Option (List Char)
  | [] => none
  | c :: cs =>
    if c = '.' || c = '(' || c = ':' then some []
    else (idAfterHash cs).map (fun t => c :: t)

/-- `Compiler.prototype._parseId`: at each `'#'` run the inner scan; on
inner failure the outer loop simply continues with the next character. -/
def parseId : List Char → Option (List Char)
  | [] => none
  | c :: cs =>
    if c = '#' then
      match idAfterHash cs with
      | some r => some r
      | none => parseId cs
    else parseId cs

/-- Inner loop of `_parseClasses`: after a `'.'`, the class name extends
to the next `'.'`, `'('`, `':'` or `'#'`; if no such delimiter follows
before the end of the line, nothing is pushed. -/
def classAfterDot : List Char → Option (List Char)
  | [] => none
  | c :: cs =>
    if c = '.' || c = '(' || c = ':' || c = '#' then some []
    else (classAfterDot cs).map (fun t => c :: t)

/-- Outer loop of `_parseClasses`: visit every `'.'` outside parentheses
(`'('` sets the flag, `')'` clears it) and collect the inner scan's
result when it finds a terminating delimiter; the outer scan resumes at
the character right after the `'.'` in every case. -/
def parseClassesAux : Bool → List Char → List (List Char)
  | _, [] => []
  | ip, c :: cs =>
    if c = '(' then parseClassesAux true cs
    else if c = ')' then parseClassesAux false cs
    else if !ip && c = '.' then
      (match classAfterDot cs with
       | some cl => [cl]
       | none => []) ++ parseClassesAux ip cs
    else parseClassesAux ip cs

/-- `Compiler.prototype._parseClasses`: all collected class names joined
with single spaces, or `undefined` (`none`) when none were collected. -/
def parseClasses (cs : List Char) : Option (List Char) :=
  match parseClassesAux false cs with
  | [] => none
  | l => some (joinSpace l)
where
  joinSpace : List (List Char) → List Char
    | [] => []
    | [x] => x
    | x :: xs => x ++ ' ' :: joinSpace xs

/-- Scan of `_parseProps` locating `parensEndAt`: the contents between
the opening parenthesis and the first `')'` after it, or `none` if the
group is unterminated. -/
def closeParen : List Char → Option (List Char)
  | [] => none
  | c :: cs =>
    if c = ')' then some []
    else (closeParen cs).map (fun r => c :: r)

/-- Scan of `_parseProps` locating `parensStartAt` (the first `'('`)
and then its closing `')'`; `none` when no complete group exists. -/
def findParenContents : List Char → Option (List Char)
  | [] => none
  | c :: cs =>
    if c = '(' then closeParen cs
    else findParenContents cs

/-- JS object property assignment `props[key] = value`: overwrite in
place if the key exists, else append (JS objects preserve insertion
order of keys). -/
def insertProp (m : List (List Char × List Char)) (k v : List Char) :
    List (List Char × List Char) :=
  match m with
  | [] => [(k, v)]
  | (k', v') :: rest =>
    if k' = k then (k', v) :: rest else (k', v') :: insertProp rest k v

/-- The `name:value` loop of `_parseProps` over the trimmed parenthesis
contents.  The source walks an index `i`: with no pending start it marks
the current position as the start of a name; at a `':'` it takes the
name, skips spaces, scans the value to the next space or end, records
the pair, skips trailing spaces, and the `for` update advances one more
character.  Every iteration advances `i` by at least one, so
`s.length + 1` fuel is enough and the zero-fuel branch is unreachable. -/
def propsGo (s : List Char) :
    Nat → Nat → Option Nat → List (List Char × List Char) →
    List (List Char × List Char)
  | 0, _, _, props => props
  | fuel + 1, i, start, props =>
    if hlt : i < s.length then
      match start with
      | none => propsGo s fuel (i + 1) (some i) props
      | some st =>
        if s.get ⟨i, hlt⟩ = ':' then
          let name := substr s st i
          let i2 := i + 1 + leadingSpaces (s.drop (i + 1))
          let i3 := i2 + leadingNonSpaces (s.drop i2)
          let i4 := i3 + leadingSpaces (s.drop i3)
          propsGo s fuel (i4 + 1) none (insertProp props name (substr s i2 i3))
        else propsGo s fuel (i + 1) (some st) props
    else props

/-- `Compiler.prototype._parseProps`: an unterminated or absent
parenthesis group yields no properties at all. -/
def parseProps (line : List Char) : List (List Char × List Char) :=
  match findParenContents line with
  | none => []
  | some inner =>
    let s := jsTrim inner
    propsGo s (s.length + 1) 0 none []

/-- The per-line assembly in `Compiler.prototype._parseLines`: start
from the empty object, set `props['id']` when `_parseId` returned a
truthy (non-empty) string, then `props['class']` when `_parseClasses`
did, then copy every named property over in its stored order. -/
def lineProps (cs : List Char) : List (List Char × List Char) :=
  let p1 :=
    match parseId cs with
    | some id => if id.isEmpty then [] else insertProp [] ['i', 'd'] id
    | none => []
  let p2 :=
    match parseClasses cs with
    | some cl =>
      if cl.isEmpty then p1 else insertProp p1 ['c', 'l', 'a', 's', 's'] cl
    | none => p1
  (parseProps cs).foldl (fun acc kv => insertProp acc kv.1 kv.2) p2

/-! ## Compiler: emission

The source tests `line.tag == Compiler.Line.NO_TAG` with JS loose
equality against the numeric sentinel `1`; for `tag = NO_TAG` itself the
test is true, and for the string tags arising below its numeric coercion
is never `1`, where loose and strict agree, so the sentinel test is
modelled as the `Option` being `none`. -/

/-- The indentation prefix built by both emitters (`level` tabs). -/
def tabs (n : Nat) : List Char :=
  List.replicate n '\t'

/-- The attribute loop of `_getOpeningTag`:
`' ' + key + '="' + value + '"'` for each stored property in order. -/
def renderProps : List (List Char × List Char) → List Char
  | [] => []
  | (k, v) :: rest => ' ' :: (k ++ '=' :: '"' :: v ++ '"' :: renderProps rest)

/-- `Compiler.prototype._getOpeningTag`: a `NO_TAG` line is its raw text
(indented, newline-terminated); otherwise `<tag attrs>`. -/
def getOpeningTag (l : Line) : List Char :=
  match parseTag l.line with
  | none => tabs l.level ++ l.line ++ ['\n']
  | some t => tabs l.level ++ '<' :: (t ++ renderProps (lineProps l.line)) ++ ['>', '\n']

/-- `Compiler.prototype._getClosingTag`: nothing for a `NO_TAG` line,
else `</tag>` indented by the line's level. -/
def getClosingTag (l : Line) : List Char :=
  match parseTag l.line with
  | none => []
  | some t => tabs l.level ++ '<' :: '/' :: (t ++ ['>', '\n'])

/-- The inner `while` of `compile`: pop and close every stacked line
whose level is `≥` the current line's level.  Returns the remaining
stack and the emitted closing text. -/
def popClose (lvl : Nat) : List Line → List Line × List Char
  | [] => ([], [])
  | l :: rest =>
    if lvl ≤ l.level then
      let r := popClose lvl rest
      (r.1, getClosingTag l ++ r.2)
    else (l :: rest, [])

/-- The final `while` of `compile`: close every line still stacked, in
LIFO order. -/
def closeAll : List Line → List Char
  | [] => []
  | l :: rest => getClosingTag l ++ closeAll rest

/-- The main loop of `Compiler.prototype.compile`, with the stack's top
at the head of the list. -/
def compileGo (stack : List Line) : List Line → List Char
  | [] => closeAll stack
  | l :: rest =>
    let r := popClose l.level stack
    r.2 ++ getOpeningTag l ++ compileGo (l :: r.1) rest

/-- `Compiler.prototype.compile` on a parsed line sequence. -/
def compileLines (ls : List Line) : List Char :=
  compileGo [] ls

/-- The line sequence a `Compiler` constructed on `cs` works with
(tokenize, then expand; parsing is recomputed on demand). -/
def compilerLines (cs : List Char) : List Line :=
  expandSingleLineStatements (getLineObjects cs)

/-- The full pipeline of the source's glue code: `PreProcessor.process`
then `new Compiler(content).compile()`. -/
def htmplate (s : String) : String :=
  String.mk (compileLines (compilerLines (process s.data)))

/-! ## Emission events

`compileEv` is `compile` with each emission abstracted into an event
that remembers which `Line` was opened, printed raw, or closed;
`compileGo_eq_render` below proves that rendering the events yields
exactly `compile`'s output, so statements about the event list are
statements about the real output. -/

/-- One emission of the compile loop. -/
inductive Ev where
  | pushTagged (l : Line)
  | pushText (l : Line)
  | popTagged (l : Line)
deriving DecidableEq

/-- Event form of `_getOpeningTag`. -/
def openEv (l : Line) : List Ev :=
  match parseTag l.line with
  | none => [Ev.pushText l]
  | some _ => [Ev.pushTagged l]

/-- Event form of `_getClosingTag`. -/
def closeEv (l : Line) : List Ev :=
  match parseTag l.line with
  | none => []
  | some _ => [Ev.popTagged l]

/-- Event form of `popClose`. -/
def popCloseEv (lvl : Nat) : List Line → List Line × List Ev
  | [] => ([], [])
  | l :: rest =>
    if lvl ≤ l.level then
      let r := popCloseEv lvl rest
      (r.1, closeEv l ++ r.2)
    else (l :: rest, [])

/-- Event form of `closeAll`. -/
def closeAllEv : List Line → List Ev
  | [] => []
  | l :: rest => closeEv l ++ closeAllEv rest

/-- Event form of `compileGo`. -/
def compileEv (stack : List Line) : List Line → List Ev
  | [] => closeAllEv stack
  | l :: rest =>
    let r := popCloseEv l.level stack
    r.2 ++ openEv l ++ compileEv (l :: r.1) rest

/-- The text a single event prints. -/
def renderEv : Ev → List Char
  | Ev.pushTagged l => getOpeningTag l
  | Ev.pushText l => getOpeningTag l
  | Ev.popTagged l => getClosingTag l

/-- Tag name of a line as the emitter prints it. -/
def evTag (l : Line) : List Char :=
  (parseTag l.line).getD []

/-- A checker for properly nested tag sequences: opening tags push
their name, text lines are skipped, and a closing tag must match the
most recently opened unclosed name; returns the remaining stack. -/
def evCheck : List (List Char) → List Ev → Option (List (List Char))
  | s, [] => some s
  | s, Ev.pushTagged l :: rest => evCheck (evTag l :: s) rest
  | s, Ev.pushText _ :: rest => evCheck s rest
  | s, Ev.popTagged l :: rest =>
    match s with
    | [] => none
    | t :: s2 => if t = evTag l then evCheck s2 rest else none

/-- Number of opening tags in an event sequence. -/
def countOpens (es : List Ev) : Nat :=
  es.countP fun e =>
    match e with
    | Ev.pushTagged _ => true
    | _ => false

/-- Number of closing tags in an event sequence. -/
def countCloses (es : List Ev) : Nat :=
  es.countP fun e =>
    match e with
    | Ev.popTagged _ => true
    | _ => false

/-- Concatenation of the text printed by a sequence of events. -/
def renderEvs : List Ev → List Char
  | [] => []
  | e :: es => renderEv e ++ renderEvs es

/-- The tag names of the tagged lines on a compile stack, top first. -/
def tagNames (st : List Line) : List (List Char) :=
  st.filterMap fun l => parseTag l.line

/-- First-match lookup in an attribute mapping. -/
def lookupProp (k : List Char) : List (List Char × List Char) → Option (List Char)
  | [] => none
  | (k', v) :: rest => if k' = k then some v else lookupProp k rest

/-- The keys of an attribute mapping, in stored order. -/
def propKeys (m : List (List Char × List Char)) : List (List Char) :=
  m.map Prod.fst

/-! ## Lemmas about attribute maps -/

theorem lookupProp_insertProp (m : List (List Char × List Char)) (k k' v : List Char) :
    lookupProp k (insertProp m k' v) = if k' = k then some v else lookupProp k m := by
  induction m with
  | nil => simp [insertProp, lookupProp]
  | cons hd tl ih =>
    obtain ⟨a, b⟩ := hd
    by_cases h1 : a = k'
    · subst h1
      by_cases h2 : a = k
      · subst h2; simp [insertProp, lookupProp]
      · simp [insertProp, lookupProp, h2]
    · by_cases h2 : a = k
      · subst h2
        have h3 : ¬ k' = a := fun h => h1 h.symm
        simp [insertProp, lookupProp, h1, h3]
      · simp [insertProp, lookupProp, h1, h2, ih]

theorem lookupProp_foldl_of_not_mem (k : List Char) :
    ∀ ps : List (List Char × List Char), (∀ p ∈ ps, p.1 ≠ k) →
      ∀ acc, lookupProp k (ps.foldl (fun a kv => insertProp a kv.1 kv.2) acc) =
        lookupProp k acc := by
  intro ps
  induction ps with
  | nil => intro _ acc; rfl
  | cons p ps ih =>
    intro h acc
    rw [List.foldl_cons, ih (fun q hq => h q (List.mem_cons_of_mem _ hq)) _,
      lookupProp_insertProp]
    simp [h p (List.mem_cons_self p ps)]

theorem lookupProp_foldl_of_lookup (k w : List Char) :
    ∀ ps : List (List Char × List Char), (propKeys ps).Nodup →
      lookupProp k ps = some w →
      ∀ acc, lookupProp k (ps.foldl (fun a kv => insertProp a kv.1 kv.2) acc) =
        some w := by
  intro ps
  induction ps with
  | nil => intro _ h; simp [lookupProp] at h
  | cons p ps ih =>
    intro hnd h acc
    obtain ⟨a, b⟩ := p
    have hnd' : a ∉ propKeys ps ∧ (propKeys ps).Nodup :=
      List.nodup_cons.mp (by simpa only [propKeys, List.map_cons] using hnd)
    rw [List.foldl_cons]
    by_cases hk : a = k
    · subst hk
      have hv : b = w := by simpa [lookupProp] using h
      have hnm : ∀ q ∈ ps, q.1 ≠ a := by
        intro q hq he
        exact hnd'.1 (he ▸ List.mem_map_of_mem Prod.fst hq)
      rw [lookupProp_foldl_of_not_mem a ps hnm _, lookupProp_insertProp]
      simp [hv]
    · have h' : lookupProp k ps = some w := by simpa [lookupProp, hk] using h
      exact ih hnd'.2 h' _

theorem propKeys_insertProp (m : List (List Char × List Char)) (k v : List Char) :
    propKeys (insertProp m k v) =
      if k ∈ propKeys m then propKeys m else propKeys m ++ [k] := by
  induction m with
  | nil => simp [insertProp, propKeys]
  | cons hd tl ih =>
    obtain ⟨a, b⟩ := hd
    by_cases h1 : a = k
    · subst h1
      simp [insertProp, propKeys]
    · have h1' : ¬ k = a := fun h => h1 h.symm
      simp only [insertProp, if_neg h1, propKeys, List.map_cons] at ih ⊢
      rw [ih]
      by_cases h2 : k ∈ List.map Prod.fst tl
      · simp [h2, h1']
      · simp [h2, h1']

theorem nodup_propKeys_insertProp (m : List (List Char × List Char)) (k v : List Char)
    (h : (propKeys m).Nodup) : (propKeys (insertProp m k v)).Nodup := by
  rw [propKeys_insertProp]
  by_cases h2 : k ∈ propKeys m
  · rwa [if_pos h2]
  · rw [if_neg h2]
    refine List.Nodup.append h (List.nodup_singleton k) ?_
    intro x hx hxk
    rw [List.mem_singleton.mp hxk] at hx
    exact h2 hx

theorem nodup_propKeys_propsGo (s : List Char) :
    ∀ fuel i start props, (propKeys props).Nodup →
      (propKeys (propsGo s fuel i start props)).Nodup := by
  intro fuel
  induction fuel with
  | zero => intro i st p h; exact h
  | succ n ih =>
    intro i st p h
    rw [propsGo]
    by_cases hlt : i < s.length
    · rw [dif_pos hlt]
      cases st with
      | none => exact ih _ _ _ h
      | some st0 =>
        dsimp only
        by_cases hc : s.get ⟨i, hlt⟩ = ':'
        · rw [if_pos hc]
          exact ih _ _ _ (nodup_propKeys_insertProp _ _ _ h)
        · rw [if_neg hc]
          exact ih _ _ _ h
    · rw [dif_neg hlt]; exact h

theorem nodup_propKeys_parseProps (cs : List Char) :
    (propKeys (parseProps cs)).Nodup := by
  unfold parseProps
  split
  · simp [propKeys]
  · exact nodup_propKeys_propsGo _ _ _ _ _ (by simp [propKeys])

/-! ## Lemmas about `NO_TAG` lines -/

theorem parseTag_none_no_delim :
    ∀ cs : List Char, parseTag cs = none →
      ∀ c ∈ cs, ¬(c = '#' || c = '.' || c = '(' || c = ':') = true := by
  intro cs
  induction cs with
  | nil => intro _ c hc; cases hc
  | cons c cs ih =>
    intro h d hd
    by_cases hc : (c = '#' || c = '.' || c = '(' || c = ':') = true
    · rw [parseTag, if_pos hc] at h; cases h
    · have h' : parseTag cs = none := by
        rw [parseTag, if_neg hc] at h
        exact Option.map_eq_none.mp h
      rcases List.mem_cons.mp hd with rfl | hd'
      · exact hc
      · exact ih h' d hd'

theorem parseId_eq_none (cs : List Char) (h : '#' ∉ cs) : parseId cs = none := by
  induction cs with
  | nil => rfl
  | cons c cs ih =>
    have hc : ¬ c = '#' := fun he => h (he ▸ List.mem_cons_self c cs)
    rw [parseId, if_neg hc]
    exact ih (fun hm => h (List.mem_cons_of_mem c hm))

theorem parseClassesAux_eq_nil (cs : List Char) (h : '.' ∉ cs) :
    ∀ ip, parseClassesAux ip cs = [] := by
  induction cs with
  | nil => intro ip; rfl
  | cons c cs ih =>
    intro ip
    have hdot : ¬ c = '.' := fun he => h (he ▸ List.mem_cons_self c cs)
    have htl : '.' ∉ cs := fun hm => h (List.mem_cons_of_mem c hm)
    by_cases hp : c = '('
    · rw [parseClassesAux, if_pos hp]; exact ih htl true
    · by_cases hq : c = ')'
      · rw [parseClassesAux, if_neg hp, if_pos hq]; exact ih htl false
      · rw [parseClassesAux, if_neg hp, if_neg hq, if_neg (by simp [hdot])]
        exact ih htl ip

theorem findParenContents_eq_none (cs : List Char) (h : '(' ∉ cs) :
    findParenContents cs = none := by
  induction cs with
  | nil => rfl
  | cons c cs ih =>
    have hc : ¬ c = '(' := fun he => h (he ▸ List.mem_cons_self c cs)
    rw [findParenContents, if_neg hc]
    exact ih (fun hm => h (List.mem_cons_of_mem c hm))

/-! ## Lemmas about unterminated parenthesis groups -/

theorem findParenContents_append (pre post : List Char) (h : '(' ∉ pre) :
    findParenContents (pre ++ '(' :: post) = closeParen post := by
  induction pre with
  | nil => simp [findParenContents]
  | cons c pre ih =>
    have hc : ¬ c = '(' := fun he => h (he ▸ List.mem_cons_self c pre)
    rw [List.cons_append, findParenContents, if_neg hc]
    exact ih (fun hm => h (List.mem_cons_of_mem c hm))

theorem closeParen_eq_none (post : List Char) (h : ')' ∉ post) :
    closeParen post = none := by
  induction post with
  | nil => rfl
  | cons c post ih =>
    have hc : ¬ c = ')' := fun he => h (he ▸ List.mem_cons_self c post)
    rw [closeParen, if_neg hc, ih (fun hm => h (List.mem_cons_of_mem c hm))]
    rfl

/-! ## Lemmas about splitting, joining and trimming -/

theorem splitNL_ne_nil : ∀ cs : List Char, splitNL cs ≠ [] := by
  intro cs
  induction cs with
  | nil => simp [splitNL]
  | cons c cs ih =>
    rw [splitNL]
    by_cases hc : c = '\n'
    · simp [hc]
    · rw [if_neg hc]
      cases hsp : splitNL cs with
      | nil => simp
      | cons h t => simp

theorem no_nl_splitNL : ∀ (cs : List Char), ∀ l ∈ splitNL cs, '\n' ∉ l := by
  intro cs
  induction cs with
  | nil =>
    intro l hl
    rw [show splitNL [] = [[]] from rfl, List.mem_singleton] at hl
    subst hl
    exact List.not_mem_nil '\n'
  | cons c cs ih =>
    intro l hl
    rw [splitNL] at hl
    by_cases hc : c = '\n'
    · rw [if_pos hc] at hl
      rcases List.mem_cons.mp hl with rfl | hl'
      · exact List.not_mem_nil '\n'
      · exact ih l hl'
    · rw [if_neg hc] at hl
      cases hsp : splitNL cs with
      | nil => exact absurd hsp (splitNL_ne_nil cs)
      | cons h t =>
        rw [hsp] at hl
        rcases List.mem_cons.mp hl with rfl | hl'
        · intro hmem
          rcases List.mem_cons.mp hmem with he | hmem'
          · exact hc he.symm
          · exact ih h (hsp ▸ List.mem_cons_self h t) hmem'
        · exact ih l (hsp ▸ List.mem_cons_of_mem h hl')

theorem splitNL_singleton : ∀ l : List Char, '\n' ∉ l → splitNL l = [l] := by
  intro l
  induction l with
  | nil => intro _; rfl
  | cons c l ih =>
    intro h
    have hc : ¬ c = '\n' := fun he => h (he ▸ List.mem_cons_self c l)
    rw [splitNL, if_neg hc, ih (fun hm => h (List.mem_cons_of_mem c hm))]

theorem splitNL_append : ∀ (l rest : List Char), '\n' ∉ l →
    splitNL (l ++ '\n' :: rest) = l :: splitNL rest := by
  intro l
  induction l with
  | nil => intro rest _; rw [List.nil_append, splitNL, if_pos rfl]
  | cons c l ih =>
    intro rest h
    have hc : ¬ c = '\n' := fun he => h (he ▸ List.mem_cons_self c l)
    rw [List.cons_append, splitNL, if_neg hc,
      ih rest (fun hm => h (List.mem_cons_of_mem c hm))]

theorem splitNL_joinNL : ∀ ls : List (List Char), ls ≠ [] →
    (∀ l ∈ ls, '\n' ∉ l) → splitNL (joinNL ls) = ls := by
  intro ls
  induction ls with
  | nil => intro h; exact absurd rfl h
  | cons l ls ih =>
    intro _ h
    cases ls with
    | nil => exact splitNL_singleton l (h l (List.mem_cons_self l []))
    | cons l2 ls2 =>
      rw [show joinNL (l :: l2 :: ls2) = l ++ '\n' :: joinNL (l2 :: ls2) from rfl,
        splitNL_append l _ (h l (List.mem_cons_self _ _)),
        ih (by simp) (fun x hx => h x (List.mem_cons_of_mem l hx))]

theorem removeEmptyLines_eq_self (ls : List (List Char))
    (h : ∀ l ∈ ls, (jsTrim l).isEmpty = false) : removeEmptyLines ls = ls := by
  unfold removeEmptyLines
  refine List.filter_eq_self.mpr ?_
  intro a ha
  simp [h a ha]

theorem mem_removeEmptyLines (ls : List (List Char)) (l : List Char)
    (h : l ∈ removeEmptyLines ls) : l ∈ ls ∧ (jsTrim l).isEmpty = false := by
  have h2 := List.mem_filter.mp h
  exact ⟨h2.1, by simpa using h2.2⟩

theorem jsTrim_eq_nil_iff (l : List Char) :
    jsTrim l = [] ↔ ∀ c ∈ l, isWS c = true := by
  unfold jsTrim
  constructor
  · intro h c hc
    rw [List.reverse_eq_nil_iff, List.dropWhile_eq_nil_iff] at h
    by_cases hws : isWS c = true
    · exact hws
    · exfalso
      have hsplit := List.takeWhile_append_dropWhile (p := isWS) (l := l)
      have hc' : c ∈ List.takeWhile isWS l ∨ c ∈ List.dropWhile isWS l := by
        rw [← List.mem_append, hsplit]
        exact hc
      rcases hc' with h1 | h1
      · exact hws (List.mem_takeWhile_imp h1)
      · exact hws (h c (List.mem_reverse.mpr h1))
  · intro h
    rw [List.dropWhile_eq_nil_iff.mpr (fun c hc => h c hc)]
    rfl

theorem ex_non_ws_of_keep (l : List Char) (h : (jsTrim l).isEmpty = false) :
    ∃ c ∈ l, isWS c = false := by
  by_contra hno
  push_neg at hno
  have hnil : jsTrim l = [] := by
    refine (jsTrim_eq_nil_iff l).mpr ?_
    intro c hc
    cases hb : isWS c
    · exact absurd hb (hno c hc)
    · rfl
  rw [hnil] at h
  simp at h

theorem keep_of_ex_non_ws (l : List Char) (c : Char) (hc : c ∈ l)
    (hws : isWS c = false) : (jsTrim l).isEmpty = false := by
  cases he : (jsTrim l).isEmpty
  · rfl
  · exfalso
    have hnil : jsTrim l = [] := by
      cases hjt : jsTrim l with
      | nil => rfl
      | cons x xs => rw [hjt] at he; simp at he
    have := (jsTrim_eq_nil_iff l).mp hnil c hc
    rw [hws] at this
    cases this

/-! ## Lemmas about the space-to-tab rewrite -/

theorem mem_drop_leadingSpaces (l : List Char) (c : Char) (hc : c ∈ l)
    (hne : ¬ c = ' ') : c ∈ l.drop (leadingSpaces l) := by
  induction l with
  | nil => cases hc
  | cons a l ih =>
    by_cases ha : a = ' '
    · rw [leadingSpaces, if_pos ha, List.drop_succ_cons]
      rcases List.mem_cons.mp hc with rfl | hc'
      · exact absurd ha hne
      · exact ih hc'
    · rw [leadingSpaces, if_neg ha, List.drop_zero]
      exact hc

theorem all_space_of_leadingSpaces_length :
    ∀ l : List Char, leadingSpaces l = l.length → ∀ c ∈ l, c = ' ' := by
  intro l
  induction l with
  | nil => intro _ c hc; cases hc
  | cons a l ih =>
    intro h c hc
    by_cases ha : a = ' '
    · rw [leadingSpaces, if_pos ha, List.length_cons] at h
      rcases List.mem_cons.mp hc with rfl | hc'
      · exact ha
      · exact ih (by omega) c hc'
    · rw [leadingSpaces, if_neg ha, List.length_cons] at h
      omega

theorem drop_leadingSpaces_head (l : List Char) (h : leadingSpaces l ≠ l.length) :
    ∃ c cs2, l.drop (leadingSpaces l) = c :: cs2 ∧ ¬ c = ' ' := by
  induction l with
  | nil => exact absurd rfl h
  | cons a l ih =>
    by_cases ha : a = ' '
    · rw [leadingSpaces, if_pos ha, List.length_cons] at h
      rw [leadingSpaces, if_pos ha, List.drop_succ_cons]
      exact ih (by omega)
    · rw [leadingSpaces, if_neg ha, List.drop_zero]
      exact ⟨a, l, rfl, ha⟩

theorem replaceLine_head (w : Nat) (l : List Char)
    (hkeep : (jsTrim l).isEmpty = false) :
    ¬ (replaceLine w l).head? = some ' ' := by
  by_cases hall : leadingSpaces l = l.length
  · exfalso
    obtain ⟨c, hc, hws⟩ := ex_non_ws_of_keep l hkeep
    have hsp := all_space_of_leadingSpaces_length l hall c hc
    rw [hsp] at hws
    simp [isWS] at hws
  · obtain ⟨c, cs2, hdrop, hc⟩ := drop_leadingSpaces_head l hall
    unfold replaceLine
    rw [if_neg hall, hdrop]
    cases ht : numTabsFor (leadingSpaces l) w with
    | zero =>
      rw [List.replicate_zero, List.nil_append, List.head?_cons]
      exact fun h => hc (Option.some.inj h)
    | succ n =>
      rw [List.replicate_succ, List.cons_append, List.head?_cons]
      exact fun h => absurd (Option.some.inj h) (by decide)

theorem mem_replaceLine (w : Nat) (l : List Char) (c : Char)
    (hc : c ∈ replaceLine w l) : c = '\t' ∨ c ∈ l := by
  unfold replaceLine at hc
  by_cases hall : leadingSpaces l = l.length
  · rw [if_pos hall] at hc
    right
    exact hc
  · rw [if_neg hall] at hc
    rcases List.mem_append.mp hc with h | h
    · left
      exact List.eq_of_mem_replicate h
    · right
      exact List.drop_subset _ _ h

theorem keep_replaceLine (w : Nat) (l : List Char)
    (h : (jsTrim l).isEmpty = false) :
    (jsTrim (replaceLine w l)).isEmpty = false := by
  obtain ⟨c, hc, hws⟩ := ex_non_ws_of_keep l h
  have hcs : ¬ c = ' ' := fun he => by rw [he] at hws; simp [isWS] at hws
  by_cases hall : leadingSpaces l = l.length
  · unfold replaceLine
    rw [if_pos hall]
    exact h
  · have hmem : c ∈ replaceLine w l := by
      unfold replaceLine
      rw [if_neg hall]
      exact List.mem_append_right _ (mem_drop_leadingSpaces l c hc hcs)
    exact keep_of_ex_non_ws _ c hmem hws

theorem nl_not_mem_replaceLine (w : Nat) (l : List Char) (h : '\n' ∉ l) :
    '\n' ∉ replaceLine w l := by
  intro hm
  rcases mem_replaceLine w l _ hm with he | hm2
  · exact absurd he (by decide)
  · exact h hm2

theorem getIndentationType_tabs_of_heads (ls : List (List Char))
    (h : ∀ l ∈ ls, ¬ l.head? = some ' ') :
    getIndentationType ls = IndentationType.tabs := by
  induction ls with
  | nil => rfl
  | cons l rest ih =>
    rw [getIndentationType]
    split
    next heq => exact absurd heq (h l (List.mem_cons_self l rest))
    next => rfl
    next => exact ih fun x hx => h x (List.mem_cons_of_mem l hx)

/-! ## Idempotence of normalization -/

theorem process_canonical (out : List (List Char))
    (hk : ∀ l ∈ out, (jsTrim l).isEmpty = false)
    (hn : ∀ l ∈ out, '\n' ∉ l)
    (ht : getIndentationType out = IndentationType.tabs) :
    process (joinNL out) = joinNL out := by
  cases out with
  | nil => decide
  | cons l0 rest =>
    have hsplit : splitNL (joinNL (l0 :: rest)) = l0 :: rest :=
      splitNL_joinNL _ (by simp) hn
    have hrem : removeEmptyLines (l0 :: rest) = l0 :: rest :=
      removeEmptyLines_eq_self _ hk
    simp only [process, hsplit, hrem, ht]

theorem process_idem (cs : List Char) : process (process cs) = process cs := by
  have hmem0 : ∀ l ∈ removeEmptyLines (splitNL cs), (jsTrim l).isEmpty = false :=
    fun l hl => (mem_removeEmptyLines _ l hl).2
  have hnl0 : ∀ l ∈ removeEmptyLines (splitNL cs), '\n' ∉ l :=
    fun l hl => no_nl_splitNL cs l (mem_removeEmptyLines _ l hl).1
  cases hty : getIndentationType (removeEmptyLines (splitNL cs)) with
  | tabs =>
    have hp : process cs = joinNL (removeEmptyLines (splitNL cs)) := by
      simp only [process, hty]
    rw [hp]
    exact process_canonical _ hmem0 hnl0 hty
  | spaces =>
    have hp : process cs =
        joinNL (replaceSpacesWithTabs (getSpacesPerTab (removeEmptyLines (splitNL cs)))
          (removeEmptyLines (splitNL cs))) := by
      simp only [process, hty]
    rw [hp]
    refine process_canonical _ ?_ ?_ ?_
    · intro l hl
      obtain ⟨l0, hl0, rfl⟩ := List.mem_map.mp hl
      exact keep_replaceLine _ l0 (hmem0 l0 hl0)
    · intro l hl
      obtain ⟨l0, hl0, rfl⟩ := List.mem_map.mp hl
      exact nl_not_mem_replaceLine _ l0 (hnl0 l0 hl0)
    · refine getIndentationType_tabs_of_heads _ ?_
      intro l hl
      obtain ⟨l0, hl0, rfl⟩ := List.mem_map.mp hl
      exact replaceLine_head _ l0 (hmem0 l0 hl0)

/-- C6: normalization is idempotent — `normalize (normalize x)` equals
`normalize x` for every input string: the first pass leaves no blank
line behind and leaves no line whose first character is a space, so the
second pass classifies the text as tab-indented and rewrites nothing. -/
theorem c6_normalize_idempotent (x : String) :
    normalize (normalize x) = normalize x := by
  show String.mk (process (String.mk (process x.data)).data) = String.mk (process x.data)
  rw [show (String.mk (process x.data)).data = process x.data from rfl, process_idem]

/-! ## The event view renders to the compiled output -/

theorem renderEvs_append : ∀ xs ys : List Ev,
    renderEvs (xs ++ ys) = renderEvs xs ++ renderEvs ys := by
  intro xs
  induction xs with
  | nil => intro ys; rfl
  | cons e xs ih =>
    intro ys
    rw [List.cons_append, renderEvs, renderEvs, ih, List.append_assoc]

theorem getOpeningTag_eq_render (l : Line) :
    getOpeningTag l = renderEvs (openEv l) := by
  unfold openEv
  cases h : parseTag l.line
  · simp [renderEvs, renderEv]
  · simp [renderEvs, renderEv]

theorem getClosingTag_eq_render (l : Line) :
    getClosingTag l = renderEvs (closeEv l) := by
  unfold closeEv
  cases h : parseTag l.line
  · simp [renderEvs, getClosingTag, h]
  · simp [renderEvs, renderEv]

theorem popClose_eq_ev : ∀ (lvl : Nat) (st : List Line),
    (popClose lvl st).1 = (popCloseEv lvl st).1 ∧
    (popClose lvl st).2 = renderEvs (popCloseEv lvl st).2 := by
  intro lvl st
  induction st with
  | nil => exact ⟨rfl, rfl⟩
  | cons l rest ih =>
    by_cases h : lvl ≤ l.level
    · simp only [popClose, popCloseEv, if_pos h]
      exact ⟨ih.1, by rw [renderEvs_append, ih.2, getClosingTag_eq_render]⟩
    · refine ⟨?_, ?_⟩ <;> simp [popClose, popCloseEv, if_neg h, renderEvs]

theorem closeAll_eq_render : ∀ st : List Line,
    closeAll st = renderEvs (closeAllEv st) := by
  intro st
  induction st with
  | nil => rfl
  | cons l rest ih =>
    rw [closeAll, closeAllEv, renderEvs_append, ih, getClosingTag_eq_render]

theorem compileGo_eq_render : ∀ (ls st : List Line),
    compileGo st ls = renderEvs (compileEv st ls) := by
  intro ls
  induction ls with
  | nil => intro st; rw [compileGo, compileEv]; exact closeAll_eq_render st
  | cons l rest ih =>
    intro st
    simp only [compileGo, compileEv]
    rw [renderEvs_append, renderEvs_append, ← (popClose_eq_ev l.level st).2,
      ← getOpeningTag_eq_render, ih, (popClose_eq_ev l.level st).1]

/-! ## The event sequence is properly nested -/

theorem evCheck_append : ∀ (xs ys : List Ev) (s : List (List Char)),
    evCheck s (xs ++ ys) =
      match evCheck s xs with
      | some s2 => evCheck s2 ys
      | none => none := by
  intro xs
  induction xs with
  | nil => intro ys s; rfl
  | cons e xs ih =>
    intro ys s
    cases e with
    | pushTagged l => rw [List.cons_append, evCheck, evCheck]; exact ih ys _
    | pushText l => rw [List.cons_append, evCheck, evCheck]; exact ih ys _
    | popTagged l =>
      rw [List.cons_append]
      cases s with
      | nil => rfl
      | cons t s2 =>
        rw [evCheck, evCheck]
        by_cases h : t = evTag l
        · rw [if_pos h, if_pos h]
          exact ih ys s2
        · rw [if_neg h, if_neg h]

theorem evCheck_popCloseEv : ∀ (lvl : Nat) (st : List Line),
    evCheck (tagNames st) (popCloseEv lvl st).2 =
      some (tagNames (popCloseEv lvl st).1) := by
  intro lvl st
  induction st with
  | nil => rfl
  | cons l rest ih =>
    by_cases h : lvl ≤ l.level
    · simp only [popCloseEv, if_pos h]
      cases hp : parseTag l.line with
      | none =>
        have h1 : closeEv l = [] := by simp [closeEv, hp]
        have h2 : tagNames (l :: rest) = tagNames rest := by
          simp [tagNames, List.filterMap_cons, hp]
        rw [h1, List.nil_append, h2]
        exact ih
      | some t =>
        have h1 : closeEv l = [Ev.popTagged l] := by simp [closeEv, hp]
        have h2 : tagNames (l :: rest) = t :: tagNames rest := by
          simp [tagNames, List.filterMap_cons, hp]
        rw [h1, h2, List.singleton_append, evCheck,
          if_pos (show t = evTag l by simp [evTag, hp])]
        exact ih
    · simp only [popCloseEv, if_neg h]
      rfl

theorem evCheck_closeAllEv : ∀ st : List Line,
    evCheck (tagNames st) (closeAllEv st) = some [] := by
  intro st
  induction st with
  | nil => rfl
  | cons l rest ih =>
    rw [closeAllEv]
    cases hp : parseTag l.line with
    | none =>
      have h1 : closeEv l = [] := by simp [closeEv, hp]
      have h2 : tagNames (l :: rest) = tagNames rest := by
        simp [tagNames, List.filterMap_cons, hp]
      rw [h1, List.nil_append, h2]
      exact ih
    | some t =>
      have h1 : closeEv l = [Ev.popTagged l] := by simp [closeEv, hp]
      have h2 : tagNames (l :: rest) = t :: tagNames rest := by
        simp [tagNames, List.filterMap_cons, hp]
      rw [h1, h2, List.singleton_append, evCheck,
        if_pos (show t = evTag l by simp [evTag, hp])]
      exact ih

theorem evCheck_compileEv : ∀ (ls st : List Line),
    evCheck (tagNames st) (compileEv st ls) = some [] := by
  intro ls
  induction ls with
  | nil => intro st; exact evCheck_closeAllEv st
  | cons l rest ih =>
    intro st
    simp only [compileEv]
    rw [List.append_assoc, evCheck_append, evCheck_popCloseEv]
    dsimp only
    cases hp : parseTag l.line with
    | none =>
      have h1 : openEv l = [Ev.pushText l] := by simp [openEv, hp]
      rw [h1, List.singleton_append, evCheck]
      have h2 : tagNames (l :: (popCloseEv l.level st).1) =
          tagNames (popCloseEv l.level st).1 := by
        simp [tagNames, List.filterMap_cons, hp]
      rw [← h2]
      exact ih _
    | some t =>
      have h1 : openEv l = [Ev.pushTagged l] := by simp [openEv, hp]
      rw [h1, List.singleton_append, evCheck]
      have h2 : evTag l :: tagNames (popCloseEv l.level st).1 =
          tagNames (l :: (popCloseEv l.level st).1) := by
        simp [tagNames, List.filterMap_cons, hp, evTag]
      rw [h2]
      exact ih _

theorem evCheck_counts : ∀ (es : List Ev) (s s2 : List (List Char)),
    evCheck s es = some s2 →
    s.length + countOpens es = s2.length + countCloses es := by
  intro es
  induction es with
  | nil =>
    intro s s2 h
    rw [Option.some.inj h]
    simp [countOpens, countCloses]
  | cons e es ih =>
    intro s s2 h
    cases e with
    | pushTagged l =>
      rw [evCheck] at h
      have h2 := ih _ _ h
      simp [countOpens, countCloses, List.countP_cons] at h2 ⊢
      omega
    | pushText l =>
      rw [evCheck] at h
      have h2 := ih _ _ h
      simp [countOpens, countCloses, List.countP_cons] at h2 ⊢
      omega
    | popTagged l =>
      cases s with
      | nil =>
        exact Option.noConfusion
          (show (none : Option (List (List Char))) = some s2 from h)
      | cons t s3 =>
        rw [evCheck] at h
        by_cases ht : t = evTag l
        · rw [if_pos ht] at h
          have h2 := ih _ _ h
          simp [countOpens, countCloses, List.countP_cons] at h2 ⊢
          omega
        · rw [if_neg ht] at h
          exact Option.noConfusion h

/-- C7: for every input string, the pipeline's compiled output is
balanced: walking the emission events with a stack, every closing tag
matches the most recently opened unclosed tag and the stack ends empty
(tags nest without overlap, and every tagged line pushed — including
those still open when the input ends — is closed exactly once); the
number of opening tags equals the number of closing tags; and the real
output text is exactly the rendering of those events. -/
theorem c7_balanced_output (s : String) :
    evCheck [] (compileEv [] (compilerLines (process s.data))) = some [] ∧
    countOpens (compileEv [] (compilerLines (process s.data))) =
      countCloses (compileEv [] (compilerLines (process s.data))) ∧
    (htmplate s).data = renderEvs (compileEv [] (compilerLines (process s.data))) := by
  refine ⟨evCheck_compileEv _ [], ?_, ?_⟩
  · have h := evCheck_counts _ _ _ (evCheck_compileEv (compilerLines (process s.data)) [])
    simpa [tagNames] using h
  · exact compileGo_eq_render _ []

/-! ## Claim theorems (concrete behaviour) -/

/-- C1, counterexample: the pipeline does not compile the spec's
end-to-end example to the claimed HTML (with or without a final
newline).  The `_parseClasses` / `_parseId` inner scans record a segment
only when a further delimiter follows it, so the trailing `.container`
and `#greeting …` are dropped; text after a tag declaration is never
emitted; and the closing tag goes on its own line. -/
theorem c1_end_to_end_ne :
    htmplate "div.container\n  p#greeting Hello world" ≠
      "<div class=\"container\">\n\t<p id=\"greeting\">Hello world</p>\n</div>" ∧
    htmplate "div.container\n  p#greeting Hello world" ≠
      "<div class=\"container\">\n\t<p id=\"greeting\">Hello world</p>\n</div>\n" :=
  ⟨by decide, by decide⟩

/-- C1, amended: what the pipeline actually produces on the two-line
example `div.container` / two-space-indented `p#greeting Hello world`. -/
theorem c1_end_to_end_actual :
    htmplate "div.container\n  p#greeting Hello world" =
      "<div>\n\t<p>\n\t</p>\n</div>\n" := by
  decide

/-- C2: compiling `div.a.b.c` yields `class="a b"`, not `class="a b c"`
— the `_parseClasses` inner scan pushes a class only when one of
`.(:#` follows it, so the final segment `c` at end of line is lost. -/
theorem c2_trailing_class_dropped :
    lookupProp "class".data (lineProps "div.a.b.c".data) = some "a b".data ∧
    htmplate "div.a.b.c" = "<div class=\"a b\">\n</div>\n" :=
  ⟨by decide, by decide⟩

/-- C3, counterexample: the output of `ul: li Hello` contains no `<li`
at all, so no `<li>` element is produced. -/
theorem c3_no_li_element :
    ¬ List.IsInfix "<li".data (htmplate "ul: li Hello").data := by
  decide

/-- C3, amended: `ul: li Hello` compiles to `<ul>` at level 0 containing
the raw text line `li Hello` at level 1 (the synthetic child contains no
delimiter, so it is parsed as `NO_TAG` and emitted verbatim), followed
by `</ul>`. -/
theorem c3_inline_block_actual :
    htmplate "ul: li Hello" = "<ul>\n\tli Hello\n</ul>\n" := by
  decide

/-- C4: when a line carries a `#`-shorthand id and its parenthesized
attributes also bind `id`, the named value wins in the assembled
mapping (the assembly inserts `id`, then `class`, then the named
attributes, which overwrite in place); in particular `div#x(id:y)`
compiles to an element with `id="y"`. -/
theorem c4_named_id_overrides_shorthand (cs i w : List Char)
    (hid : parseId cs = some i)
    (h : lookupProp "id".data (parseProps cs) = some w) :
    lookupProp "id".data (lineProps cs) = some w ∧
    htmplate "div#x(id:y)" = "<div id=\"y\">\n</div>\n" := by
  constructor
  · unfold lineProps
    exact lookupProp_foldl_of_lookup _ _ _ (nodup_propKeys_parseProps cs) h _
  · decide

/-- Witness for C4 at `div#x(id:y)`. -/
theorem c4_named_id_overrides_shorthand_witness :
    lookupProp "id".data (lineProps "div#x(id:y)".data) = some "y".data ∧
    htmplate "div#x(id:y)" = "<div id=\"y\">\n</div>\n" :=
  c4_named_id_overrides_shorthand "div#x(id:y)".data "x".data "y".data
    (by decide) (by decide)

/-- C8: a line whose first `(` is never matched by a `)` yields an empty
named-attribute set (no error), and compilation still produces output,
e.g. on `div(a:b`. -/
theorem c8_unterminated_parens (pre post : List Char)
    (h1 : '(' ∉ pre) (h2 : ')' ∉ post) :
    parseProps (pre ++ '(' :: post) = [] ∧
    htmplate "div(a:b" = "<div>\n</div>\n" := by
  constructor
  · unfold parseProps
    rw [findParenContents_append pre post h1, closeParen_eq_none post h2]
  · decide

/-- Witness for C8 at `div(a:b`. -/
theorem c8_unterminated_parens_witness :
    parseProps ("div".data ++ '(' :: "a:b".data) = [] ∧
    htmplate "div(a:b" = "<div>\n</div>\n" :=
  c8_unterminated_parens "div".data "a:b".data (by decide) (by decide)

/-- C9: a line parsed to the `NO_TAG` sentinel has an empty attribute
mapping and is emitted as its raw text only — indented by its level,
with no opening tag, no attributes and no closing tag. -/
theorem c9_no_tag_line (cs : List Char) (lvl : Nat) (h : parseTag cs = none) :
    lineProps cs = [] ∧
    getOpeningTag ⟨cs, lvl⟩ = tabs lvl ++ cs ++ ['\n'] ∧
    getClosingTag ⟨cs, lvl⟩ = [] := by
  have hd := parseTag_none_no_delim cs h
  have hhash : '#' ∉ cs := fun hm => hd '#' hm (by simp)
  have hdot : '.' ∉ cs := fun hm => hd '.' hm (by simp)
  have hpar : '(' ∉ cs := fun hm => hd '(' hm (by simp)
  have h1 : parseId cs = none := parseId_eq_none cs hhash
  have h2 : parseClasses cs = none := by
    unfold parseClasses
    rw [parseClassesAux_eq_nil cs hdot false]
  have h3 : parseProps cs = [] := by
    unfold parseProps
    rw [findParenContents_eq_none cs hpar]
  refine ⟨by simp [lineProps, h1, h2, h3], ?_, ?_⟩
  · simp [getOpeningTag, h]
  · simp [getClosingTag, h]

/-- Witness for C9 at the text line `Hello world` at level 2. -/
theorem c9_no_tag_line_witness :
    lineProps "Hello world".data = [] ∧
    getOpeningTag ⟨"Hello world".data, 2⟩ =
      tabs 2 ++ "Hello world".data ++ ['\n'] ∧
    getClosingTag ⟨"Hello world".data, 2⟩ = [] :=
  c9_no_tag_line "Hello world".data 2 (by decide)

/-- The rewrite loop's tab count is the ceiling of `count / w`: the
least `t` with `count ≤ t * w`. -/
theorem numTabsFor_ceil (count w : Nat) (hw : 0 < w) :
    count ≤ numTabsFor count w * w ∧
    ∀ t, count ≤ t * w → numTabsFor count w ≤ t := by
  unfold numTabsFor
  have h1 : (count + w - 1) % w + (count + w - 1) / w * w = count + w - 1 :=
    Nat.mod_add_div' _ _
  have hlt : (count + w - 1) % w < w := Nat.mod_lt _ hw
  constructor
  · generalize hq : (count + w - 1) / w * w = q at h1 ⊢
    generalize hm : (count + w - 1) % w = m at h1 hlt
    omega
  · intro t ht
    have ht' : count ≤ w * t := by rw [Nat.mul_comm]; exact ht
    have h2 : count + w - 1 ≤ w - 1 + w * t := by omega
    have h3 : (count + w - 1) / w ≤ (w - 1 + w * t) / w := Nat.div_le_div_right h2
    rwa [Nat.add_mul_div_left _ _ hw, Nat.div_eq_of_lt (show w - 1 < w by omega),
      Nat.zero_add] at h3

/-- C5, counterexample: with inferred indent width 2, a line with 3
leading spaces is rewritten to 2 indent units, not to the claimed
`floor(3 / 2) = 1`: normalizing `"  a\n   b"` yields `"\ta\n\t\tb"`,
whereas the claimed floor rewriting would yield `"\ta\n\tb"`. -/
theorem c5_floor_counterexample :
    normalize "  a\n   b" = "\ta\n\t\tb" ∧
    ("\ta\n\t\tb" : String) ≠ "\ta\n\tb" :=
  ⟨by decide, by decide⟩

/-- C5, amended: for a line that is not entirely spaces, the rewrite
replaces its leading spaces by `⌈leadingSpaces / indentWidth⌉` indent
units — the least `t` covering the spaces, not the floor — because the
JS loop bound `spacesEndAt / spacesPerTab` is a floating-point quotient
and `for (j = 0; j < numTabs; j++)` runs once per natural below it.
(A line consisting entirely of spaces is left unchanged, but such lines
were already removed as blank.) -/
theorem c5_space_rewrite_ceil (w : Nat) (l : List Char)
    (hw : 0 < w) (hl : leadingSpaces l ≠ l.length) :
    ∃ t, replaceLine w l = List.replicate t '\t' ++ l.drop (leadingSpaces l) ∧
      leadingSpaces l ≤ t * w ∧
      ∀ t2, leadingSpaces l ≤ t2 * w → t ≤ t2 := by
  refine ⟨numTabsFor (leadingSpaces l) w, ?_, (numTabsFor_ceil _ _ hw).1,
    (numTabsFor_ceil _ _ hw).2⟩
  unfold replaceLine
  rw [if_neg hl]

/-- Witness for C5 (amended) at 3 leading spaces and width 2. -/
theorem c5_space_rewrite_ceil_witness :
    ∃ t, replaceLine 2 "   b".data =
        List.replicate t '\t' ++ "   b".data.drop (leadingSpaces "   b".data) ∧
      leadingSpaces "   b".data ≤ t * 2 ∧
      ∀ t2, leadingSpaces "   b".data ≤ t2 * 2 → t ≤ t2 :=
  c5_space_rewrite_ceil 2 "   b".data (by decide) (by decide)

/-- C10: a synthetic child inserted by the colon split is visited on the
next iteration and may be split again, so `a: b: c` at level `k` expands
to the chain `a:` at `k`, `b:` at `k+1`, `c` at `k+2`. -/
theorem c10_expansion_cascades (k : Nat) :
    expandSingleLineStatements [⟨"a: b: c".data, k⟩] =
      [⟨"a:".data, k⟩, ⟨"b:".data, k + 1⟩, ⟨"c".data, k + 2⟩] :=
  rfl

end Htmplate
